import Mathlib

/-!
Verification of a binary search tree library (insertion, four traversals,
validation, serialization, size computation, level-grouped listing) against
its specification.  The definitions below are a shallow embedding of the
Python source `binary-tree.py`: `TreeNode`/`None` pointers become an
inductive `Tree`, lists accumulated by `result.append` become Lean lists
built in the same visit order, and the breadth-first queue becomes an
explicit list-based queue holding only non-empty subtrees, exactly as the
source never enqueues `None` children.
-/

namespace BinTreeSpec

/-- Shallow embedding of `TreeNode`: a node holds a value and two optional
children; the absent pointer `None` is the `leaf` constructor. -/
inductive Tree where
  | leaf : Tree
  | node : Int → Tree → Tree → Tree
deriving DecidableEq, Repr

open Tree

/-- Embedding of `BST._insert_recursive`: descend left when `val < node.val`,
otherwise (ties included) descend right; an empty link becomes a new leaf
node.  `BST.insert` rebinds the root to this result. -/
def insert : Tree → Int → Tree
  | leaf, v => node v leaf leaf
  | node x l r, v =>
      if v < x then node x (insert l v) r
      else node x l (insert r v)

/-- Building a tree by repeated `BST.insert` starting from the empty root. -/
def insertList (vs : List Int) : Tree := vs.foldl insert leaf

/-- Embedding of `inorder_traversal`: left subtree, current value, right
subtree, in the order `result.append` is reached. -/
def inorder_traversal : Tree → List Int
  | leaf => []
  | node v l r => inorder_traversal l ++ v :: inorder_traversal r

/-- Embedding of `preorder_traversal`: current value first, then left, then
right subtree. -/
def preorder_traversal : Tree → List Int
  | leaf => []
  | node v l r => v :: (preorder_traversal l ++ preorder_traversal r)

/-- Embedding of `postorder_traversal`: left subtree, right subtree, then the
current value last. -/
def postorder_traversal : Tree → List Int
  | leaf => []
  | node v l r => postorder_traversal l ++ (postorder_traversal r ++ [v])

/-- The queue entries `level_order_traversal` appends for a dequeued node's
children: the left child if present, then the right child if present
(`if node.left: queue.append(node.left)` etc.). -/
def enqueueChildren (l r : Tree) : List Tree :=
  (if l = leaf then [] else [l]) ++ (if r = leaf then [] else [r])

/-- Size of a subtree, used only as the termination measure of the
breadth-first loops. -/
def tsize : Tree → Nat
  | leaf => 0
  | node _ l r => tsize l + tsize r + 1

/-- The `while queue:` loop of `level_order_traversal`: pop the front node,
emit its value, enqueue its existing children. The `leaf` branch is dead in
actual runs (the source never enqueues `None`) but keeps the function total. -/
def levelOrderAux : List Tree → List Int
  | [] => []
  | leaf :: q => levelOrderAux q
  | node v l r :: q => v :: levelOrderAux (q ++ enqueueChildren l r)
termination_by q => 2 * (q.map tsize).sum + q.length
decreasing_by
  all_goals
    simp only [enqueueChildren, tsize, List.map_append, List.map_cons, List.map_nil,
      List.sum_append, List.sum_cons, List.sum_nil, List.length_append,
      List.length_cons, List.length_nil]
    first
      | omega
      | (split <;> split <;> simp <;> try omega)

/-- Embedding of `level_order_traversal`: empty root yields `[]`, otherwise
run the queue loop seeded with the root. -/
def level_order_traversal (root : Tree) : List Int :=
  if root = leaf then [] else levelOrderAux [root]

/-- The Python loop of `validate_bst`: scan adjacent pairs of the inorder
sequence and reject as soon as `vals[i] <= vals[i-1]`. -/
def strictIncreasing : List Int → Bool
  | [] => true
  | [_] => true
  | a :: b :: rest => if b ≤ a then false else strictIncreasing (b :: rest)

/-- Embedding of `validate_bst`: compute the inorder traversal and check it
is strictly increasing. -/
def validate_bst (root : Tree) : Bool :=
  strictIncreasing (inorder_traversal root)

/-- Embedding of `serialize_tree`: `"null"` for an absent subtree, else
`f"{node.val},{serialize(left)},{serialize(right)}"`. -/
def serialize_tree : Tree → String
  | leaf => "null"
  | node v l r =>
      toString v ++ "," ++ serialize_tree l ++ "," ++ serialize_tree r

/-- Embedding of `calculate_tree_size`: 0 for an empty subtree, otherwise
left count plus right count plus one. -/
def calculate_tree_size : Tree → Nat
  | leaf => 0
  | node _ l r => calculate_tree_size l + calculate_tree_size r + 1

/-- The queue entries `print_tree_by_levels` appends: existing children
tagged with depth `lvl + 1`. -/
def enqueueChildrenLvl (l r : Tree) (lvl : Nat) : List (Tree × Nat) :=
  (if l = leaf then [] else [(l, lvl + 1)]) ++
    (if r = leaf then [] else [(r, lvl + 1)])

/-- The `while queue:` loop of `print_tree_by_levels`, with each
`print(f"Level {x}: {ys}")` modelled as emitting the pair `(x, ys)`:
when the dequeued node's level differs from the current one the finished
group is emitted and accumulation restarts; the final group is emitted when
the queue empties. The `leaf` branch is dead in actual runs. -/
def printLevelsAux : List (Tree × Nat) → Nat → List Int → List (Nat × List Int)
  | [], cur, acc => [(cur, acc)]
  | (leaf, _) :: q, cur, acc => printLevelsAux q cur acc
  | (node v l r, lvl) :: q, cur, acc =>
      if lvl = cur then
        printLevelsAux (q ++ enqueueChildrenLvl l r lvl) cur (acc ++ [v])
      else
        (cur, acc) :: printLevelsAux (q ++ enqueueChildrenLvl l r lvl) lvl [v]
termination_by q _ _ => 2 * (q.map (fun p => tsize p.1)).sum + q.length
decreasing_by
  all_goals
    simp only [enqueueChildrenLvl, tsize, List.map_append, List.map_cons, List.map_nil,
      List.sum_append, List.sum_cons, List.sum_nil, List.length_append,
      List.length_cons, List.length_nil]
    first
      | omega
      | (split <;> split <;> simp <;> try omega)

/-- Embedding of `print_tree_by_levels` as the sequence of level groups it
prints: nothing for an empty root, otherwise the queue loop seeded with
`(root, 0)`, current level 0, empty accumulator. -/
def print_tree_by_levels (root : Tree) : List (Nat × List Int) :=
  if root = leaf then [] else printLevelsAux [(root, 0)] 0 []

/-- The ordering invariant maintained by insertion: every value in the left
subtree is strictly below the node's value, every value in the right subtree
is at least the node's value (ties go right), recursively. -/
def IsBST : Tree → Prop
  | leaf => True
  | node v l r =>
      (∀ x ∈ inorder_traversal l, x < v) ∧
      (∀ x ∈ inorder_traversal r, v ≤ x) ∧ IsBST l ∧ IsBST r

/-- Relation expressing the frame condition of one insertion: the second
tree is the first with exactly one empty link (or the empty root) replaced
by the new leaf node carrying `v`; every pre-existing node keeps its value
and its occupied child links. -/
inductive InsertShape (v : Int) : Tree → Tree → Prop where
  | here : InsertShape v leaf (node v leaf leaf)
  | left {x : Int} {l l' r : Tree} :
      InsertShape v l l' → InsertShape v (node x l r) (node x l' r)
  | right {x : Int} {l r r' : Tree} :
      InsertShape v r r' → InsertShape v (node x l r) (node x l r')

section Theorems

/-- Membership in the inorder sequence after one insertion: exactly the old
members plus the inserted value. -/
lemma mem_inorder_insert (t : Tree) (v x : Int) :
    x ∈ inorder_traversal (insert t v) ↔ x = v ∨ x ∈ inorder_traversal t := by
  induction t with
  | leaf => simp [insert, inorder_traversal]
  | node y l r ihl ihr =>
      by_cases h : v < y <;>
        simp [insert, h, inorder_traversal, ihl, ihr] <;> tauto

/-- Insertion preserves the BST ordering invariant. -/
lemma isBST_insert (t : Tree) (v : Int) (h : IsBST t) : IsBST (insert t v) := by
  induction t with
  | leaf => simp [insert, IsBST, inorder_traversal]
  | node y l r ihl ihr =>
      obtain ⟨hl, hr, bl, br⟩ := h
      by_cases hv : v < y
      · simp only [insert, if_pos hv, IsBST]
        refine ⟨?_, hr, ihl bl, br⟩
        intro x hx
        rcases (mem_inorder_insert l v x).mp hx with rfl | hx
        · exact hv
        · exact hl x hx
      · simp only [insert, if_neg hv, IsBST]
        refine ⟨hl, ?_, bl, ihr br⟩
        intro x hx
        rcases (mem_inorder_insert r v x).mp hx with rfl | hx
        · exact not_lt.mp hv
        · exact hr x hx

/-- A tree satisfying the ordering invariant has non-decreasing inorder. -/
lemma sorted_inorder_of_isBST (t : Tree) (h : IsBST t) :
    List.Sorted (· ≤ ·) (inorder_traversal t) := by
  induction t with
  | leaf => simp [inorder_traversal]
  | node v l r ihl ihr =>
      obtain ⟨hl, hr, bl, br⟩ := h
      simp only [inorder_traversal, List.Sorted] at *
      rw [List.pairwise_append]
      refine ⟨ihl bl, ?_, ?_⟩
      · rw [List.pairwise_cons]
        exact ⟨hr, ihr br⟩
      · intro a ha b hb
        rcases List.mem_cons.mp hb with rfl | hb
        · exact le_of_lt (hl a ha)
        · exact le_trans (le_of_lt (hl a ha)) (hr b hb)

/-- Folding insertions over any starting tree preserves the invariant. -/
lemma isBST_foldl (vs : List Int) :
    ∀ t, IsBST t → IsBST (vs.foldl insert t) := by
  induction vs with
  | nil => intro t h; exact h
  | cons v vs ih => intro t h; exact ih _ (isBST_insert t v h)

/-- A tree built from the empty root by repeated insertion satisfies the
ordering invariant. -/
lemma isBST_insertList (vs : List Int) : IsBST (insertList vs) :=
  isBST_foldl vs leaf trivial

/-- C1: for every sequence of insertions into an initially empty tree the
inorder traversal is non-decreasing; in particular inserting
[4,2,6,1,3,5,7] yields inorder [1,2,3,4,5,6,7]. -/
theorem C1_inorder_sorted :
    (∀ vs : List Int,
        List.Sorted (· ≤ ·) (inorder_traversal (insertList vs)))
    ∧ inorder_traversal (insertList [4, 2, 6, 1, 3, 5, 7])
        = [1, 2, 3, 4, 5, 6, 7] := by
  constructor
  · intro vs
    exact sorted_inorder_of_isBST _ (isBST_insertList vs)
  · decide

/-- The adjacent-pair scan of `validate_bst` accepts a list exactly when the
list is strictly increasing link by link. -/
lemma strictIncreasing_iff_chain (l : List Int) :
    strictIncreasing l = true ↔ List.Chain' (· < ·) l := by
  induction l with
  | nil => simp [strictIncreasing]
  | cons a t ih =>
      cases t with
      | nil => simp [strictIncreasing]
      | cons b u =>
          simp only [strictIncreasing, List.chain'_cons] at *
          by_cases h : b ≤ a
          · simp only [if_pos h]
            constructor
            · intro hfalse; cases hfalse
            · rintro ⟨hab, -⟩; omega
          · simp only [if_neg h, ih]
            have hab : a < b := by omega
            simp [hab]

/-- C2: `validate_bst` returns true exactly when the inorder traversal is
strictly increasing; in particular the tree built by inserting [5,5] is
rejected. -/
theorem C2_validate_bst_strict :
    (∀ t : Tree,
        validate_bst t = true ↔ List.Chain' (· < ·) (inorder_traversal t))
    ∧ validate_bst (insertList [5, 5]) = false := by
  exact ⟨fun t => strictIncreasing_iff_chain (inorder_traversal t), by decide⟩

/-- C3: descent during insertion goes left exactly when the new value is
strictly below the current node's value, and right otherwise (so equal
values always go right). -/
theorem C3_tie_break_right :
    ∀ (v x : Int) (l r : Tree),
      (v < x → insert (node x l r) v = node x (insert l v) r)
      ∧ (x ≤ v → insert (node x l r) v = node x l (insert r v)) := by
  intro v x l r
  constructor
  · intro h
    simp [insert, if_pos h]
  · intro h
    simp [insert, if_neg (not_lt.mpr h)]

/-- Witness for C3 at concrete inputs: 3 into a node holding 5 goes left,
and a duplicate 5 goes right. -/
theorem C3_tie_break_right_witness :
    ((3 : Int) < 5
      ∧ insert (node 5 leaf leaf) 3 = node 5 (insert leaf 3) leaf)
    ∧ ((5 : Int) ≤ 5
      ∧ insert (node 5 leaf leaf) 5 = node 5 leaf (insert leaf 5)) :=
  ⟨⟨by decide, (C3_tie_break_right 3 5 leaf leaf).1 (by decide)⟩,
   ⟨by decide, (C3_tie_break_right 5 5 leaf leaf).2 (by decide)⟩⟩

/-- C4: serialization emits the null marker for an empty subtree and
`value,left,right` for a node, and produces the expected strings on the
two-node tree and on the tree built from [4,2,6,1,3,5,7]. -/
theorem C4_serialize_format :
    serialize_tree leaf = "null"
    ∧ (∀ (v : Int) (l r : Tree),
        serialize_tree (node v l r)
          = toString v ++ "," ++ serialize_tree l ++ "," ++ serialize_tree r)
    ∧ serialize_tree (node 4 (node 2 leaf leaf) leaf) = "4,2,null,null,null"
    ∧ serialize_tree (insertList [4, 2, 6, 1, 3, 5, 7])
        = "4,2,1,null,null,3,null,null,6,5,null,null,7,null,null" := by
  refine ⟨rfl, fun v l r => rfl, by decide, by decide⟩

/-- C5: the node count equals the length of the inorder and preorder
traversals and satisfies the size recursion. -/
theorem C5_size_consistent :
    (∀ t : Tree,
        calculate_tree_size t = (inorder_traversal t).length
        ∧ calculate_tree_size t = (preorder_traversal t).length)
    ∧ calculate_tree_size leaf = 0
    ∧ (∀ (v : Int) (l r : Tree),
        calculate_tree_size (node v l r)
          = 1 + calculate_tree_size l + calculate_tree_size r) := by
  refine ⟨?_, rfl, ?_⟩
  · intro t
    induction t with
    | leaf => simp [calculate_tree_size, inorder_traversal, preorder_traversal]
    | node v l r ihl ihr =>
        simp only [calculate_tree_size, inorder_traversal, preorder_traversal,
          List.length_append, List.length_cons]
        omega
  · intro v l r
    simp only [calculate_tree_size]
    omega

/-- C7: the preorder traversal of a non-empty tree starts with the root's
value, the postorder traversal ends with it, and postorder emits a node's
value only after the complete outputs of both children's subtrees. -/
theorem C7_root_first_root_last :
    ∀ (v : Int) (l r : Tree),
      (preorder_traversal (node v l r)).head? = some v
      ∧ (postorder_traversal (node v l r)).getLast? = some v
      ∧ postorder_traversal (node v l r)
          = postorder_traversal l ++ postorder_traversal r ++ [v] := by
  intro v l r
  refine ⟨rfl, ?_, by simp [postorder_traversal]⟩
  simp only [postorder_traversal, ← List.append_assoc]
  rw [List.getLast?_concat]

/-- C8: on the empty tree the four traversals are empty, the size is 0, and
validation succeeds. -/
theorem C8_empty_tree :
    inorder_traversal leaf = []
    ∧ preorder_traversal leaf = []
    ∧ postorder_traversal leaf = []
    ∧ level_order_traversal leaf = []
    ∧ calculate_tree_size leaf = 0
    ∧ validate_bst leaf = true := by
  decide

/-- C9: one insertion grows the node count by exactly one and changes the
tree only by turning one empty link into the new leaf, leaving every
pre-existing node's value and occupied links intact. -/
theorem C9_insert_frame :
    ∀ (t : Tree) (v : Int),
      calculate_tree_size (insert t v) = calculate_tree_size t + 1
      ∧ InsertShape v t (insert t v) := by
  intro t v
  induction t with
  | leaf => exact ⟨rfl, InsertShape.here⟩
  | node x l r ihl ihr =>
      by_cases h : v < x
      · simp only [insert, if_pos h, calculate_tree_size]
        exact ⟨by omega, InsertShape.left ihl.2⟩
      · simp only [insert, if_neg h, calculate_tree_size]
        exact ⟨by omega, InsertShape.right ihr.2⟩

/-- Dropping the level tags from the entries enqueued by the level-grouped
loop gives exactly the entries enqueued by the plain level-order loop. -/
lemma map_fst_enqueueChildrenLvl (l r : Tree) (lvl : Nat) :
    List.map Prod.fst (enqueueChildrenLvl l r lvl) = enqueueChildren l r := by
  by_cases hl : l = leaf <;> by_cases hr : r = leaf <;>
    simp [enqueueChildrenLvl, enqueueChildren, hl, hr]

/-- Concatenating the groups produced by the level-grouped loop recovers the
accumulator followed by the plain level-order output of the same queue. -/
lemma flatten_snd_printLevelsAux :
    ∀ (q : List (Tree × Nat)) (cur : Nat) (acc : List Int),
      (List.map Prod.snd (printLevelsAux q cur acc)).flatten
        = acc ++ levelOrderAux (List.map Prod.fst q) := by
  intro q cur acc
  induction q, cur, acc using printLevelsAux.induct <;>
    simp_all [printLevelsAux, levelOrderAux, map_fst_enqueueChildrenLvl,
      List.map_append]

/-- C6: concatenating the value sequences of the level groups, in order,
yields exactly the level-order traversal. -/
theorem C6_level_grouping :
    ∀ t : Tree,
      (List.map Prod.snd (print_tree_by_levels t)).flatten
        = level_order_traversal t := by
  intro t
  cases t with
  | leaf => rfl
  | node v l r =>
      simp [print_tree_by_levels, level_order_traversal,
        flatten_snd_printLevelsAux]

/-- The inorder sequences of the children actually enqueued cover exactly
the inorder sequences of both child links (absent children contribute
nothing). -/
lemma flatten_inorder_enqueueChildren (l r : Tree) :
    (List.map inorder_traversal (enqueueChildren l r)).flatten
      = inorder_traversal l ++ inorder_traversal r := by
  by_cases hl : l = leaf <;> by_cases hr : r = leaf <;>
    simp [enqueueChildren, hl, hr, inorder_traversal]

/-- The level-order loop output is a permutation of the concatenated inorder
sequences of the queued subtrees. -/
lemma levelOrderAux_perm :
    ∀ q : List Tree,
      List.Perm (levelOrderAux q) ((q.map inorder_traversal).flatten) := by
  intro q
  induction q using levelOrderAux.induct with
  | case1 => simp [levelOrderAux]
  | case2 q ih =>
      simpa [levelOrderAux, inorder_traversal] using ih
  | case3 v l r q ih =>
      simp only [levelOrderAux, List.map_cons, List.flatten_cons,
        inorder_traversal]
      have h1 : ((q ++ enqueueChildren l r).map inorder_traversal).flatten
          = (q.map inorder_traversal).flatten
            ++ (inorder_traversal l ++ inorder_traversal r) := by
        simp [List.map_append, List.flatten_append,
          flatten_inorder_enqueueChildren]
      rw [h1] at ih
      have p1 : List.Perm
          ((inorder_traversal l ++ inorder_traversal r)
            ++ (q.map inorder_traversal).flatten)
          ((q.map inorder_traversal).flatten
            ++ (inorder_traversal l ++ inorder_traversal r)) :=
        List.perm_append_comm
      have p2 : List.Perm
          ((inorder_traversal l ++ v :: inorder_traversal r)
            ++ (q.map inorder_traversal).flatten)
          (v :: ((inorder_traversal l ++ inorder_traversal r)
            ++ (q.map inorder_traversal).flatten)) :=
        List.Perm.append_right _ List.perm_middle
      exact ((ih.cons v).trans ((p1.cons v).symm)).trans p2.symm

/-- Preorder output is a rearrangement of inorder output. -/
lemma preorder_perm_inorder (t : Tree) :
    List.Perm (preorder_traversal t) (inorder_traversal t) := by
  induction t with
  | leaf => simp [preorder_traversal, inorder_traversal]
  | node v l r ihl ihr =>
      simp only [preorder_traversal, inorder_traversal]
      exact ((ihl.append ihr).cons v).trans List.perm_middle.symm

/-- Postorder output is a rearrangement of inorder output. -/
lemma postorder_perm_inorder (t : Tree) :
    List.Perm (postorder_traversal t) (inorder_traversal t) := by
  induction t with
  | leaf => simp [postorder_traversal, inorder_traversal]
  | node v l r ihl ihr =>
      simp only [postorder_traversal, inorder_traversal]
      exact (ihl.append (ihr.append (List.Perm.refl [v]))).trans
        ((List.Perm.refl _).append (List.perm_append_singleton v _))

/-- C10: the four traversals return permutations of one multiset of node
values. -/
theorem C10_traversals_permutations :
    ∀ t : Tree,
      List.Perm (preorder_traversal t) (inorder_traversal t)
      ∧ List.Perm (postorder_traversal t) (inorder_traversal t)
      ∧ List.Perm (level_order_traversal t) (inorder_traversal t) := by
  intro t
  refine ⟨preorder_perm_inorder t, postorder_perm_inorder t, ?_⟩
  cases t with
  | leaf => simp [level_order_traversal, inorder_traversal]
  | node v l r =>
      simpa [level_order_traversal] using levelOrderAux_perm [node v l r]

end Theorems

end BinTreeSpec
